import Mathlib

set_option maxHeartbeats 1000000

namespace CoreCpp

/-! Shallow embedding of the pooling and caching core of the rok4 tile server
slice (files Cache.cpp and Style.h). Cache.cpp only defines the static data
members of IndexCache, CurlPool, ProjPool, StoragePool, TmsBook and StyleBook;
the member functions live in Cache.h, which is not part of the provided
sources, so the operations below are modelled from the specification
(sections 4.1 to 4.5). Style.h is fully provided and embedded directly. -/

/-- Modelled from the spec: one entry of the Index Cache, holding the string
key, the resolved index metadata (opaque to the cache, hence a type
parameter) and the insertion timestamp in seconds. The class IndexElement is
declared in the missing Cache.h; Cache.cpp line 55 only shows that the cache
is a list of IndexElement pointers. -/
structure IndexElement (V : Type) where
  key : String
  value : V
  ts : Nat
deriving DecidableEq

/-- State of the Index Cache. Cache.cpp lines 55 to 58 define the statics: a
recency list of entries (most recently used at the head), a key index (an
unordered map to list iterators, semantically derivable from the list and
therefore not duplicated here), and the integer limits size and validity. -/
structure IndexCache (V : Type) where
  size : Nat
  validity : Nat
  cache : List (IndexElement V)
deriving DecidableEq

namespace IndexCache

/-- Initial static state of the Index Cache, from Cache.cpp lines 55 to 58:
the list and map are default constructed (empty) and the limits are
initialised with size = 100 and validity = 300. -/
def initial (V : Type) : IndexCache V :=
  { size := 100, validity := 300, cache := [] }

/-- An empty Index Cache with the given configured limits. -/
def empty (V : Type) (size validity : Nat) : IndexCache V :=
  { size := size, validity := validity, cache := [] }

/-- Modelled from the spec: get returns the cached value if present and not
expired (age at most validity), promoting the entry to most recently used;
otherwise it returns absent, leaving the cache unchanged (lazy expiry: a
stale entry stays resident). The member function IndexCache.getIndexElement
is in the missing Cache.h. -/
def get {V : Type} (c : IndexCache V) (key : String) (now : Nat) :
    Option V × IndexCache V :=
  match c.cache.find? (fun e => e.key == key) with
  | none => (none, c)
  | some e =>
    if now - e.ts ≤ c.validity then
      (some e.value, { c with cache := e :: c.cache.filter (fun x => x.key != key) })
    else
      (none, c)

/-- Modelled from the spec: put inserts or replaces the entry for the key
with the current timestamp and marks it most recently used; if inserting a
new key would exceed the maximum entry count, the least recently used entry
(the tail of the recency list) is evicted, so the result never holds more
than size entries. The member function IndexCache.addIndexElement is in the
missing Cache.h. -/
def put {V : Type} (c : IndexCache V) (key : String) (v : V) (now : Nat) :
    IndexCache V :=
  { c with cache :=
      (({ key := key, value := v, ts := now } : IndexElement V) ::
        c.cache.filter (fun x => x.key != key)).take c.size }

/-- Modelled from the spec: invalidate removes the entry for the key
unconditionally. -/
def invalidate {V : Type} (c : IndexCache V) (key : String) : IndexCache V :=
  { c with cache := c.cache.filter (fun x => x.key != key) }

/-- Modelled from the spec: clear removes all entries. -/
def clear {V : Type} (c : IndexCache V) : IndexCache V :=
  { c with cache := [] }

end IndexCache

/-- One observable operation on the Index Cache, with the time at which it
is executed (the injectable clock of the spec). -/
inductive CacheOp (V : Type) where
  | put (key : String) (value : V) (t : Nat)
  | get (key : String) (t : Nat)
  | invalidate (key : String)
  | clear

/-- Apply one operation to the cache state, discarding the read result. -/
def applyOp {V : Type} (c : IndexCache V) : CacheOp V → IndexCache V
  | CacheOp.put k v t => c.put k v t
  | CacheOp.get k t => (c.get k t).snd
  | CacheOp.invalidate k => c.invalidate k
  | CacheOp.clear => c.clear

/-- Run a sequence of operations left to right. -/
def runOps {V : Type} (c : IndexCache V) (ops : List (CacheOp V)) : IndexCache V :=
  ops.foldl applyOp c

/-- Filtering with a predicate that is false on some member strictly
shrinks the list. -/
theorem length_filter_lt {α : Type} (p : α → Bool) {l : List α} {e : α}
    (he : e ∈ l) (hp : p e = false) : (l.filter p).length < l.length := by
  induction l with
  | nil => cases he
  | cons a l ih =>
    rcases List.mem_cons.mp he with rfl | hmem
    · rw [List.filter_cons, hp]
      exact Nat.lt_succ_of_le (List.length_filter_le _ _)
    · cases hpa : p a with
      | false =>
        rw [List.filter_cons, hpa]
        exact Nat.lt_succ_of_le (List.length_filter_le _ _)
      | true =>
        rw [List.filter_cons, hpa]
        exact Nat.succ_lt_succ (ih hmem)

/-- A get never lengthens the recency list. -/
theorem length_get_le {V : Type} (c : IndexCache V) (k : String) (t : Nat) :
    (c.get k t).snd.cache.length ≤ c.cache.length := by
  unfold IndexCache.get
  cases hfind : c.cache.find? (fun e => e.key == k) with
  | none => simp
  | some e =>
    have hmem := List.mem_of_find?_eq_some hfind
    have hkey : e.key = k := by
      have h := List.find?_some hfind
      simpa using h
    dsimp only
    split
    · have hlt : (c.cache.filter (fun x => x.key != k)).length < c.cache.length := by
        refine length_filter_lt _ hmem ?_
        simp [bne, hkey]
      simpa using hlt
    · simp

/-- A put never leaves more than size entries. -/
theorem length_put_le {V : Type} (c : IndexCache V) (k : String) (v : V) (t : Nat) :
    (c.put k v t).cache.length ≤ c.size := by
  simp [IndexCache.put]

/-- The configured size is unchanged by every operation. -/
theorem size_applyOp {V : Type} (c : IndexCache V) (op : CacheOp V) :
    (applyOp c op).size = c.size := by
  cases op with
  | put k v t => rfl
  | get k t =>
    show (c.get k t).snd.size = c.size
    unfold IndexCache.get
    cases hfind : c.cache.find? (fun e => e.key == k) with
    | none => rfl
    | some e =>
      dsimp only
      split <;> rfl
  | invalidate k => rfl
  | clear => rfl

/-- The configured validity is unchanged by every operation. -/
theorem validity_applyOp {V : Type} (c : IndexCache V) (op : CacheOp V) :
    (applyOp c op).validity = c.validity := by
  cases op with
  | put k v t => rfl
  | get k t =>
    show (c.get k t).snd.validity = c.validity
    unfold IndexCache.get
    cases hfind : c.cache.find? (fun e => e.key == k) with
    | none => rfl
    | some e =>
      dsimp only
      split <;> rfl
  | invalidate k => rfl
  | clear => rfl

/-- Every operation preserves the size bound on the recency list. -/
theorem length_applyOp {V : Type} (c : IndexCache V) (op : CacheOp V)
    (h : c.cache.length ≤ c.size) :
    (applyOp c op).cache.length ≤ (applyOp c op).size := by
  rw [size_applyOp]
  cases op with
  | put k v t => exact length_put_le c k v t
  | get k t => exact Nat.le_trans (length_get_le c k t) h
  | invalidate k =>
    exact Nat.le_trans (Nat.le_trans (List.length_filter_le _ _) (Nat.le_refl _)) h
  | clear => exact Nat.zero_le _

/-- Running operations never changes the configured size. -/
theorem size_runOps {V : Type} (ops : List (CacheOp V)) :
    ∀ c : IndexCache V, (runOps c ops).size = c.size := by
  induction ops with
  | nil => intro c; rfl
  | cons op ops ih =>
    intro c
    show (runOps (applyOp c op) ops).size = c.size
    rw [ih, size_applyOp]

/-- Running operations never changes the configured validity. -/
theorem validity_runOps {V : Type} (ops : List (CacheOp V)) :
    ∀ c : IndexCache V, (runOps c ops).validity = c.validity := by
  induction ops with
  | nil => intro c; rfl
  | cons op ops ih =>
    intro c
    show (runOps (applyOp c op) ops).validity = c.validity
    rw [ih, validity_applyOp]

/-- The size bound is an invariant of every operation sequence. -/
theorem length_runOps {V : Type} (ops : List (CacheOp V)) :
    ∀ c : IndexCache V, c.cache.length ≤ c.size →
      (runOps c ops).cache.length ≤ (runOps c ops).size := by
  induction ops with
  | nil => intro c h; exact h
  | cons op ops ih =>
    intro c h
    exact ih (applyOp c op) (length_applyOp c op h)

/-- Claim C1: for every sequence of put and get operations (and also
invalidate and clear) executed on an Index Cache configured with maximum
entry count sz, the number of resident entries after every prefix of the
sequence, hence at every observable point of the linearized history, is at
most sz. -/
theorem indexCache_size_bound {V : Type} (sz vd : Nat) (ops : List (CacheOp V)) :
    (runOps (IndexCache.empty V sz vd) ops).cache.length ≤ sz := by
  have h := length_runOps ops (IndexCache.empty V sz vd) (Nat.zero_le _)
  rwa [size_runOps] at h

/-- In a recency list whose keys are pairwise distinct, searching for a key
finds exactly the member carrying that key. -/
theorem find_mem_nodup {V : Type} {l : List (IndexElement V)} {k : String}
    {e : IndexElement V} (hnd : (l.map IndexElement.key).Nodup)
    (he : e ∈ l) (hk : e.key = k) :
    l.find? (fun x => x.key == k) = some e := by
  induction l with
  | nil => cases he
  | cons a l ih =>
    rw [List.map_cons] at hnd
    have hnd1 := (List.nodup_cons.mp hnd).1
    have hnd2 := (List.nodup_cons.mp hnd).2
    rcases List.mem_cons.mp he with rfl | hmem
    · exact List.find?_cons_of_pos l (by simp [hk])
    · have hne : a.key ≠ k := by
        intro hak
        have hmm : k ∈ l.map IndexElement.key := by
          rw [← hk]
          exact List.mem_map_of_mem _ hmem
        rw [hak] at hnd1
        exact hnd1 hmm
      rw [List.find?_cons_of_neg l (by simp [hne])]
      exact ih hnd2 hmem

/-- A get for a key held by no resident entry misses and leaves the cache
unchanged. -/
theorem get_none_of_absent {V : Type} (c : IndexCache V) (k : String) (t : Nat)
    (h : ∀ e ∈ c.cache, e.key ≠ k) : c.get k t = (none, c) := by
  unfold IndexCache.get
  have hf : c.cache.find? (fun e => e.key == k) = none :=
    List.find?_eq_none.mpr (fun x hx => by simp [h x hx])
  rw [hf]

/-- Claim C2: get(key) returns the cached value exactly when an entry for
that key is resident with age at most validity, promoting that entry to the
most recently used position without touching its timestamp; otherwise it
returns absent and leaves the cache unchanged, so an expired entry is
treated as absent on every read although it stays resident (lazy expiry).
In particular, on a nonempty cache, a key inserted at time T is a hit when
read at time T + validity - 1 and a miss when read at T + validity + 1. -/
theorem indexCache_get_contract {V : Type} (c : IndexCache V) (k : String)
    (t : Nat) (hnd : (c.cache.map IndexElement.key).Nodup) :
    (∀ e ∈ c.cache, e.key = k → t - e.ts ≤ c.validity →
      c.get k t = (some e.value,
        { c with cache := e :: c.cache.filter (fun x => x.key != k) }))
    ∧ ((¬ ∃ e ∈ c.cache, e.key = k ∧ t - e.ts ≤ c.validity) →
      c.get k t = (none, c))
    ∧ (∀ (sz vd T : Nat) (v : V), 1 ≤ sz →
      (((IndexCache.empty V sz vd).put k v T).get k (T + vd - 1)).fst = some v)
    ∧ (∀ (sz vd T : Nat) (v : V),
      (((IndexCache.empty V sz vd).put k v T).get k (T + vd + 1)).fst = none) := by
  refine ⟨?_, ?_, ?_, ?_⟩
  · intro e he hk hfresh
    unfold IndexCache.get
    rw [find_mem_nodup hnd he hk]
    dsimp only
    rw [if_pos hfresh]
  · intro hnone
    unfold IndexCache.get
    cases hfind : c.cache.find? (fun e => e.key == k) with
    | none => rfl
    | some e =>
      have hmem := List.mem_of_find?_eq_some hfind
      have hkey : e.key = k := by simpa using List.find?_some hfind
      dsimp only
      rw [if_neg]
      intro hle
      exact hnone ⟨e, hmem, hkey, hle⟩
  · intro sz vd T v hsz
    cases sz with
    | zero => exact absurd hsz (by decide)
    | succ m =>
      have hcache : ((IndexCache.empty V (m + 1) vd).put k v T).cache
          = [{ key := k, value := v, ts := T }] := by
        simp [IndexCache.put, IndexCache.empty]
      unfold IndexCache.get
      rw [hcache]
      rw [List.find?_cons_of_pos _ (by simp)]
      have hval : ((IndexCache.empty V (m + 1) vd).put k v T).validity = vd := rfl
      dsimp only
      rw [hval, if_pos (by omega)]
  · intro sz vd T v
    cases sz with
    | zero =>
      have hcache : ((IndexCache.empty V 0 vd).put k v T).cache = [] := by
        simp [IndexCache.put, IndexCache.empty]
      unfold IndexCache.get
      rw [hcache]
      rfl
    | succ m =>
      have hcache : ((IndexCache.empty V (m + 1) vd).put k v T).cache
          = [{ key := k, value := v, ts := T }] := by
        simp [IndexCache.put, IndexCache.empty]
      unfold IndexCache.get
      rw [hcache]
      rw [List.find?_cons_of_pos _ (by simp)]
      have hval : ((IndexCache.empty V (m + 1) vd).put k v T).validity = vd := rfl
      dsimp only
      rw [hval, if_neg (by omega)]

/-- Concrete instance of claim C2, with the key uniqueness hypothesis
discharged on an explicit cache holding one entry. -/
theorem indexCache_get_contract_witness :
    ((((⟨2, 10, [⟨"a", 7, 3⟩]⟩ : IndexCache Nat)).cache.map IndexElement.key).Nodup)
    ∧ ((∀ e ∈ (⟨2, 10, [⟨"a", 7, 3⟩]⟩ : IndexCache Nat).cache, e.key = "a" →
          4 - e.ts ≤ (⟨2, 10, [⟨"a", 7, 3⟩]⟩ : IndexCache Nat).validity →
          (⟨2, 10, [⟨"a", 7, 3⟩]⟩ : IndexCache Nat).get "a" 4 = (some e.value,
            { (⟨2, 10, [⟨"a", 7, 3⟩]⟩ : IndexCache Nat) with
              cache := e :: (⟨2, 10, [⟨"a", 7, 3⟩]⟩ : IndexCache Nat).cache.filter
                (fun x => x.key != "a") }))
      ∧ ((¬ ∃ e ∈ (⟨2, 10, [⟨"a", 7, 3⟩]⟩ : IndexCache Nat).cache, e.key = "a" ∧
            4 - e.ts ≤ (⟨2, 10, [⟨"a", 7, 3⟩]⟩ : IndexCache Nat).validity) →
          (⟨2, 10, [⟨"a", 7, 3⟩]⟩ : IndexCache Nat).get "a" 4
            = (none, (⟨2, 10, [⟨"a", 7, 3⟩]⟩ : IndexCache Nat)))
      ∧ (∀ (sz vd T : Nat) (v : Nat), 1 ≤ sz →
          (((IndexCache.empty Nat sz vd).put "a" v T).get "a" (T + vd - 1)).fst = some v)
      ∧ (∀ (sz vd T : Nat) (v : Nat),
          (((IndexCache.empty Nat sz vd).put "a" v T).get "a" (T + vd + 1)).fst = none)) :=
  ⟨by decide, indexCache_get_contract (⟨2, 10, [⟨"a", 7, 3⟩]⟩ : IndexCache Nat) "a" 4 (by decide)⟩

/-- Insert a sequence of key and value pairs, all stamped at the same
time, left to right (the pure insertion workload of the spec tests). -/
def putSeq {V : Type} (c : IndexCache V) (ps : List (String × V)) (t : Nat) :
    IndexCache V :=
  ps.foldl (fun acc p => acc.put p.1 p.2 t) c

/-- Truncating after a cons absorbs an inner truncation to the same bound. -/
theorem take_cons_take {α : Type} (n : Nat) (a : α) (l : List α) :
    (a :: l.take n).take n = (a :: l).take n := by
  cases n with
  | zero => rfl
  | succ m =>
    rw [List.take_succ_cons, List.take_succ_cons, List.take_take,
      Nat.min_eq_left (Nat.le_succ m)]

/-- Inserting a key absent from the cache conses the fresh entry onto the
recency list and truncates to the configured size. -/
theorem put_fresh {V : Type} (c : IndexCache V) {k : String} (v : V) (t : Nat)
    (h : ∀ e ∈ c.cache, e.key ≠ k) :
    (c.put k v t).cache =
      (({ key := k, value := v, ts := t } : IndexElement V) :: c.cache).take c.size := by
  have hfilter : c.cache.filter (fun x => x.key != k) = c.cache :=
    List.filter_eq_self.mpr (fun a ha => by simp [h a ha])
  simp [IndexCache.put, hfilter]

/-- Inserting fresh, pairwise distinct keys accumulates the entries in
reverse insertion order, truncated to the configured size. -/
theorem putSeq_fresh_cache {V : Type} (ps : List (String × V)) (t : Nat) :
    ∀ (c : IndexCache V) (acc : List (IndexElement V)),
      c.cache = acc.take c.size →
      (∀ p ∈ ps, ∀ e ∈ acc, e.key ≠ p.1) →
      (ps.map Prod.fst).Nodup →
      (putSeq c ps t).cache =
        ((ps.map (fun p => ({ key := p.1, value := p.2, ts := t } : IndexElement V))).reverse
          ++ acc).take c.size := by
  induction ps with
  | nil =>
    intro c acc hc hfresh hnd
    simpa [putSeq] using hc
  | cons p ps ih =>
    intro c acc hc hfresh hnd
    rw [List.map_cons] at hnd
    have hnd1 := (List.nodup_cons.mp hnd).1
    have hnd2 := (List.nodup_cons.mp hnd).2
    have hstep : (c.put p.1 p.2 t).cache
        = (({ key := p.1, value := p.2, ts := t } : IndexElement V) :: acc).take c.size := by
      rw [put_fresh c p.2 t ?_]
      · rw [hc, take_cons_take]
      · intro e he
        have hmem : e ∈ acc := by
          rw [hc] at he
          exact List.take_subset _ _ he
        exact hfresh p (List.mem_cons_self _ _) e hmem
    have hsz : (c.put p.1 p.2 t).size = c.size := rfl
    have hf2 : ∀ q ∈ ps,
        ∀ e ∈ ({ key := p.1, value := p.2, ts := t } : IndexElement V) :: acc,
          e.key ≠ q.1 := by
      intro q hq e he
      rcases List.mem_cons.mp he with rfl | hmem
      · intro hkey
        apply hnd1
        have hpq : p.1 = q.1 := hkey
        rw [hpq]
        exact List.mem_map_of_mem _ hq
      · exact hfresh q (List.mem_cons_of_mem _ hq) e hmem
    have hrec := ih (c.put p.1 p.2 t)
      (({ key := p.1, value := p.2, ts := t } : IndexElement V) :: acc)
      (by rw [hstep, hsz]) hf2 hnd2
    show (putSeq (c.put p.1 p.2 t) ps t).cache = _
    rw [hrec, hsz, List.map_cons, List.reverse_cons, List.append_assoc,
      List.singleton_append]

/-- The configured size is unchanged by a put sequence. -/
theorem size_putSeq {V : Type} (ps : List (String × V)) (t : Nat) :
    ∀ c : IndexCache V, (putSeq c ps t).size = c.size := by
  induction ps with
  | nil => intro c; rfl
  | cons p ps ih =>
    intro c
    show (putSeq (c.put p.1 p.2 t) ps t).size = c.size
    rw [ih]
    rfl

/-- The configured validity is unchanged by a put sequence. -/
theorem validity_putSeq {V : Type} (ps : List (String × V)) (t : Nat) :
    ∀ c : IndexCache V, (putSeq c ps t).validity = c.validity := by
  induction ps with
  | nil => intro c; rfl
  | cons p ps ih =>
    intro c
    show (putSeq (c.put p.1 p.2 t) ps t).validity = c.validity
    rw [ih]
    rfl

/-- Claim C3: put marks its entry most recently used, and when inserting a
new key into a full cache the least recently used entry is evicted, so after
inserting sz + 1 distinct keys into an empty cache of maximum size sz with
no intervening reads, exactly the first inserted key is absent and every
other inserted key is still present with its value. -/
theorem indexCache_lru_eviction {V : Type} (sz vd T : Nat) (p0 : String × V)
    (rest : List (String × V))
    (hnd : ((p0 :: rest).map Prod.fst).Nodup)
    (hlen : rest.length = sz) :
    ((putSeq (IndexCache.empty V sz vd) (p0 :: rest) T).get p0.1 T).fst = none
    ∧ (∀ p ∈ rest,
        ((putSeq (IndexCache.empty V sz vd) (p0 :: rest) T).get p.1 T).fst = some p.2) := by
  rw [List.map_cons] at hnd
  have hnd1 := (List.nodup_cons.mp hnd).1
  have hnd2 := (List.nodup_cons.mp hnd).2
  have hcache : (putSeq (IndexCache.empty V sz vd) (p0 :: rest) T).cache
      = ((rest.map (fun p => ({ key := p.1, value := p.2, ts := T } : IndexElement V))).reverse) := by
    have h := putSeq_fresh_cache (p0 :: rest) T (IndexCache.empty V sz vd) [] (by simp [IndexCache.empty])
      (by intro p hp e he; cases he) (by rw [List.map_cons]; exact hnd)
    rw [List.append_nil] at h
    have hsz : (IndexCache.empty V sz vd).size = sz := rfl
    rw [hsz] at h
    rw [h, List.map_cons, List.reverse_cons]
    have hlen2 : ((rest.map
        (fun p => ({ key := p.1, value := p.2, ts := T } : IndexElement V))).reverse).length
        = sz := by
      simp [hlen]
    rw [← hlen2, List.take_left]
  constructor
  · have habs : ∀ e ∈ (putSeq (IndexCache.empty V sz vd) (p0 :: rest) T).cache,
        e.key ≠ p0.1 := by
      rw [hcache]
      intro e he
      rw [List.mem_reverse] at he
      obtain ⟨p, hp, rfl⟩ := List.mem_map.mp he
      intro hkey
      apply hnd1
      rw [← hkey]
      exact List.mem_map_of_mem _ hp
    rw [get_none_of_absent _ _ _ habs]
  · intro p hp
    have hknd : (((putSeq (IndexCache.empty V sz vd) (p0 :: rest) T).cache).map
        IndexElement.key).Nodup := by
      rw [hcache, List.map_reverse, List.map_map]
      refine List.nodup_reverse.mpr ?_
      have : (IndexElement.key ∘ fun p : String × V =>
          ({ key := p.1, value := p.2, ts := T } : IndexElement V)) = Prod.fst := rfl
      rw [this]
      exact hnd2
    have hmem : ({ key := p.1, value := p.2, ts := T } : IndexElement V)
        ∈ (putSeq (IndexCache.empty V sz vd) (p0 :: rest) T).cache := by
      rw [hcache, List.mem_reverse]
      exact List.mem_map_of_mem _ hp
    have hfind := find_mem_nodup hknd hmem
      (show ({ key := p.1, value := p.2, ts := T } : IndexElement V).key = p.1 from rfl)
    have hval : (putSeq (IndexCache.empty V sz vd) (p0 :: rest) T).validity = vd := by
      rw [validity_putSeq]
      rfl
    unfold IndexCache.get
    rw [hfind]
    dsimp only
    rw [hval, if_pos (by omega)]

/-- Concrete instance of claim C3: two distinct keys inserted into a cache
of maximum size one evict the first key and keep the second. -/
theorem indexCache_lru_eviction_witness :
    (((("a", 10) :: [("b", 20)]).map (Prod.fst (α := String) (β := Nat))).Nodup)
    ∧ ([(("b" : String), (20 : Nat))].length = 1)
    ∧ (((putSeq (IndexCache.empty Nat 1 0) (("a", 10) :: [("b", 20)]) 0).get "a" 0).fst = none
      ∧ (∀ p ∈ [(("b" : String), (20 : Nat))],
          ((putSeq (IndexCache.empty Nat 1 0) (("a", 10) :: [("b", 20)]) 0).get p.1 0).fst
            = some p.2)) :=
  ⟨by decide, by decide,
    indexCache_lru_eviction 1 0 0 ("a", 10) [("b", 20)] (by decide) (by decide)⟩

/-- Structure eta for the Index Cache state. -/
theorem cache_eta {V : Type} (c : IndexCache V) :
    c = (⟨c.size, c.validity, c.cache⟩ : IndexCache V) := rfl

/-- Claim C4: a successful get promotes its key in the recency order exactly
as an insertion of that key does (the two resulting recency orders carry the
same keys in the same positions); consequently, with maximum size two, the
sequence insert a, insert b, get a, insert c leaves b evicted while a and c
are present. -/
theorem indexCache_get_promotes {V : Type} (c : IndexCache V) (k : String)
    (t : Nat) (v : V) (t2 : Nat)
    (hlen : c.cache.length ≤ c.size) (hhit : (c.get k t).fst.isSome) :
    ((c.get k t).snd.cache.map IndexElement.key)
      = ((c.put k v t2).cache.map IndexElement.key)
    ∧ (∀ (vd T : Nat) (va vb vc : V),
        ((((((IndexCache.empty V 2 vd).put "a" va T).put "b" vb T).get "a" T).snd.put
            "c" vc T).get "b" T).fst = none
        ∧ ((((((IndexCache.empty V 2 vd).put "a" va T).put "b" vb T).get "a" T).snd.put
            "c" vc T).get "a" T).fst = some va
        ∧ ((((((IndexCache.empty V 2 vd).put "a" va T).put "b" vb T).get "a" T).snd.put
            "c" vc T).get "c" T).fst = some vc) := by
  constructor
  · cases hfind : c.cache.find? (fun e => e.key == k) with
    | none =>
      exfalso
      unfold IndexCache.get at hhit
      rw [hfind] at hhit
      simp at hhit
    | some e =>
      have hkey : e.key = k := by simpa using List.find?_some hfind
      have hmem := List.mem_of_find?_eq_some hfind
      by_cases hif : t - e.ts ≤ c.validity
      · have hget : c.get k t = (some e.value,
            { c with cache := e :: c.cache.filter (fun x => x.key != k) }) := by
          unfold IndexCache.get
          rw [hfind]
          dsimp only
          rw [if_pos hif]
        have hput : (c.put k v t2).cache =
            ({ key := k, value := v, ts := t2 } : IndexElement V) ::
              c.cache.filter (fun x => x.key != k) := by
          unfold IndexCache.put
          dsimp only
          apply List.take_of_length_le
          have hlt : (c.cache.filter (fun x => x.key != k)).length < c.cache.length :=
            length_filter_lt _ hmem (by simp [bne, hkey])
          simp only [List.length_cons]
          omega
        rw [hget, hput]
        simp [hkey]
      · exfalso
        unfold IndexCache.get at hhit
        rw [hfind] at hhit
        dsimp only at hhit
        rw [if_neg hif] at hhit
        simp at hhit
  · intro vd T va vb vc
    have h1 : ((IndexCache.empty V 2 vd).put "a" va T).cache
        = [{ key := "a", value := va, ts := T }] := by
      simp [IndexCache.put, IndexCache.empty]
    have h2 : (((IndexCache.empty V 2 vd).put "a" va T).put "b" vb T).cache
        = [{ key := "b", value := vb, ts := T }, { key := "a", value := va, ts := T }] := by
      have hf := put_fresh (((IndexCache.empty V 2 vd)).put "a" va T) vb T
        (k := "b") (by rw [h1]; intro e he; rcases List.mem_singleton.mp he with rfl; simp)
      rw [hf, h1]
      rfl
    have hsz2 : (((IndexCache.empty V 2 vd).put "a" va T).put "b" vb T).size = 2 := rfl
    have hvd2 : (((IndexCache.empty V 2 vd).put "a" va T).put "b" vb T).validity = vd := rfl
    have h3 : ((((IndexCache.empty V 2 vd).put "a" va T).put "b" vb T).get "a" T).snd.cache
        = [{ key := "a", value := va, ts := T }, { key := "b", value := vb, ts := T }] := by
      unfold IndexCache.get
      rw [h2]
      rw [List.find?_cons_of_neg _ (by simp)]
      rw [List.find?_cons_of_pos _ (by simp)]
      dsimp only
      rw [hvd2, if_pos (by omega)]
      simp
    have hsz3 : ((((IndexCache.empty V 2 vd).put "a" va T).put "b" vb T).get "a" T).snd.size
        = 2 := by
      have := size_applyOp (((IndexCache.empty V 2 vd).put "a" va T).put "b" vb T)
        (CacheOp.get "a" T)
      exact this.trans hsz2
    have hvd3 : ((((IndexCache.empty V 2 vd).put "a" va T).put "b" vb T).get "a" T).snd.validity
        = vd := by
      have := validity_applyOp (((IndexCache.empty V 2 vd).put "a" va T).put "b" vb T)
        (CacheOp.get "a" T)
      exact this.trans hvd2
    have h4 : (((((IndexCache.empty V 2 vd).put "a" va T).put "b" vb T).get "a" T).snd.put
        "c" vc T).cache
        = [{ key := "c", value := vc, ts := T }, { key := "a", value := va, ts := T }] := by
      have hf := put_fresh ((((IndexCache.empty V 2 vd).put "a" va T).put "b" vb T).get
        "a" T).snd vc T (k := "c")
        (by
          rw [h3]
          intro e he
          rcases List.mem_cons.mp he with rfl | he2
          · simp
          · rcases List.mem_singleton.mp he2 with rfl
            simp)
      rw [hf, h3, hsz3]
      rfl
    have hvd4 : (((((IndexCache.empty V 2 vd).put "a" va T).put "b" vb T).get "a" T).snd.put
        "c" vc T).validity = vd := by
      show ((((((IndexCache.empty V 2 vd).put "a" va T).put "b" vb T).get "a" T).snd).validity)
        = vd
      exact hvd3
    have hsz4 : (((((IndexCache.empty V 2 vd).put "a" va T).put "b" vb T).get "a" T).snd.put
        "c" vc T).size = 2 := by
      show ((((((IndexCache.empty V 2 vd).put "a" va T).put "b" vb T).get "a" T).snd).size)
        = 2
      exact hsz3
    have hc4 : ((((IndexCache.empty V 2 vd).put "a" va T).put "b" vb T).get "a" T).snd.put
        "c" vc T = (⟨2, vd, [⟨"c", vc, T⟩, ⟨"a", va, T⟩]⟩ : IndexCache V) := by
      rw [cache_eta (((((IndexCache.empty V 2 vd).put "a" va T).put "b" vb T).get
        "a" T).snd.put "c" vc T), hsz4, hvd4, h4]
    refine ⟨?_, ?_, ?_⟩
    · rw [hc4]
      rw [get_none_of_absent _ _ _ ?_]
      intro e he
      rcases List.mem_cons.mp he with rfl | he2
      · simp
      · rcases List.mem_singleton.mp he2 with rfl
        simp
    · rw [hc4]
      unfold IndexCache.get
      rw [List.find?_cons_of_neg _ (by simp)]
      rw [List.find?_cons_of_pos _ (by simp)]
      dsimp only
      rw [if_pos (by omega)]
    · rw [hc4]
      unfold IndexCache.get
      rw [List.find?_cons_of_pos _ (by simp)]
      dsimp only
      rw [if_pos (by omega)]

/-- Concrete instance of claim C4: the promotion equality applied to a one
entry cache, together with the size two scenario at concrete values. -/
theorem indexCache_get_promotes_witness :
    ((⟨2, 10, [⟨"a", 7, 3⟩]⟩ : IndexCache Nat).cache.length
        ≤ (⟨2, 10, [⟨"a", 7, 3⟩]⟩ : IndexCache Nat).size)
    ∧ (((⟨2, 10, [⟨"a", 7, 3⟩]⟩ : IndexCache Nat).get "a" 4).fst.isSome)
    ∧ ((((⟨2, 10, [⟨"a", 7, 3⟩]⟩ : IndexCache Nat).get "a" 4).snd.cache.map
          IndexElement.key)
        = (((⟨2, 10, [⟨"a", 7, 3⟩]⟩ : IndexCache Nat).put "a" 9 5).cache.map
          IndexElement.key)
      ∧ (∀ (vd T : Nat) (va vb vc : Nat),
          ((((((IndexCache.empty Nat 2 vd).put "a" va T).put "b" vb T).get "a" T).snd.put
              "c" vc T).get "b" T).fst = none
          ∧ ((((((IndexCache.empty Nat 2 vd).put "a" va T).put "b" vb T).get "a" T).snd.put
              "c" vc T).get "a" T).fst = some va
          ∧ ((((((IndexCache.empty Nat 2 vd).put "a" va T).put "b" vb T).get "a" T).snd.put
              "c" vc T).get "c" T).fst = some vc)) :=
  ⟨by decide, by decide,
    indexCache_get_promotes (⟨2, 10, [⟨"a", 7, 3⟩]⟩ : IndexCache Nat) "a" 4 9 5
      (by decide) (by decide)⟩

/-- The keys that appear as the argument of a put in an operation
sequence. -/
def putKeys {V : Type} (ops : List (CacheOp V)) : List String :=
  ops.filterMap (fun op => match op with
    | CacheOp.put k _ _ => some k
    | _ => none)

/-- An operation that is not a put of the key k cannot make an entry with
key k resident. -/
theorem applyOp_absent {V : Type} (c : IndexCache V) (op : CacheOp V) (k : String)
    (hop : ∀ v t, op ≠ CacheOp.put k v t)
    (h : ∀ e ∈ c.cache, e.key ≠ k) :
    ∀ e ∈ (applyOp c op).cache, e.key ≠ k := by
  cases op with
  | put k2 v t =>
    have hk2 : k2 ≠ k := by
      intro heq
      exact hop v t (by rw [heq])
    intro e he
    have he2 : e ∈ ({ key := k2, value := v, ts := t } : IndexElement V) ::
        c.cache.filter (fun x => x.key != k2) := List.take_subset _ _ he
    rcases List.mem_cons.mp he2 with rfl | hmem
    · exact hk2
    · exact h e ((List.filter_sublist _).subset hmem)
  | get k2 t =>
    intro e he
    revert he
    show e ∈ (c.get k2 t).snd.cache → e.key ≠ k
    unfold IndexCache.get
    cases hfind : c.cache.find? (fun x => x.key == k2) with
    | none => exact h e
    | some e2 =>
      dsimp only
      split
      · intro he
        rcases List.mem_cons.mp he with rfl | hmem
        · exact h e (List.mem_of_find?_eq_some hfind)
        · exact h e ((List.filter_sublist _).subset hmem)
      · exact h e
  | invalidate k2 =>
    intro e he
    exact h e ((List.filter_sublist _).subset he)
  | clear =>
    intro e he
    exact absurd he (List.not_mem_nil e)

/-- A key never inserted by any operation of the sequence stays absent. -/
theorem runOps_absent {V : Type} (ops : List (CacheOp V)) (k : String) :
    ∀ c : IndexCache V, k ∉ putKeys ops → (∀ e ∈ c.cache, e.key ≠ k) →
      ∀ e ∈ (runOps c ops).cache, e.key ≠ k := by
  induction ops with
  | nil => intro c hk h; exact h
  | cons op ops ih =>
    intro c hk h
    have hop : ∀ v t, op ≠ CacheOp.put k v t := by
      intro v t heq
      subst heq
      apply hk
      show k ∈ putKeys (CacheOp.put k v t :: ops)
      have hcons : putKeys (CacheOp.put k v t :: ops) = k :: putKeys ops := rfl
      rw [hcons]
      exact List.mem_cons_self _ _
    have hk1 : k ∉ putKeys ops := by
      intro hm
      apply hk
      show k ∈ putKeys (op :: ops)
      cases op with
      | put k2 v t =>
        have hcons : putKeys (CacheOp.put k2 v t :: ops) = k2 :: putKeys ops := rfl
        rw [hcons]
        exact List.mem_cons_of_mem _ hm
      | get k2 t => exact hm
      | invalidate k2 => exact hm
      | clear => exact hm
    exact ih (applyOp c op) hk1 (applyOp_absent c op k hop h)

/-- Claim C5: a get for a key never given to put during the whole run, or
for a key just removed by invalidate, or for a key held by no resident
entry, or for a key whose every resident entry has expired, returns absent;
the miss is an ordinary Option value, produced without modifying the cache
when no fresh entry exists. -/
theorem indexCache_miss_absent {V : Type} (sz vd : Nat) (ops : List (CacheOp V))
    (k : String) (t : Nat) (c : IndexCache V)
    (hk : k ∉ putKeys ops) :
    ((runOps (IndexCache.empty V sz vd) ops).get k t).fst = none
    ∧ ((c.invalidate k).get k t).fst = none
    ∧ ((∀ e ∈ c.cache, e.key ≠ k) → c.get k t = (none, c))
    ∧ ((∀ e ∈ c.cache, e.key = k → c.validity < t - e.ts) → (c.get k t).fst = none) := by
  refine ⟨?_, ?_, ?_, ?_⟩
  · have habs := runOps_absent ops k (IndexCache.empty V sz vd) hk
      (by intro e he; exact absurd he (List.not_mem_nil e))
    rw [get_none_of_absent _ _ _ habs]
  · have habs : ∀ e ∈ (c.invalidate k).cache, e.key ≠ k := by
      intro e he
      have he2 : e ∈ c.cache.filter (fun x => x.key != k) := he
      exact bne_iff_ne.mp ((List.mem_filter.mp he2).2)
    rw [get_none_of_absent _ _ _ habs]
  · intro h
    exact get_none_of_absent c k t h
  · intro h
    cases hfind : c.cache.find? (fun e => e.key == k) with
    | none =>
      unfold IndexCache.get
      rw [hfind]
    | some e =>
      have hkey : e.key = k := by simpa using List.find?_some hfind
      have hmem := List.mem_of_find?_eq_some hfind
      unfold IndexCache.get
      rw [hfind]
      dsimp only
      rw [if_neg (by have := h e hmem hkey; omega)]

/-- Concrete instance of claim C5: the key b is never put by the run and
misses in every way the claim lists. -/
theorem indexCache_miss_absent_witness :
    ("b" ∉ putKeys [CacheOp.put "a" (3 : Nat) 0])
    ∧ (((runOps (IndexCache.empty Nat 1 5) [CacheOp.put "a" (3 : Nat) 0]).get "b" 1).fst = none
      ∧ (((⟨1, 0, [⟨"b", 4, 0⟩]⟩ : IndexCache Nat).invalidate "b").get "b" 1).fst = none
      ∧ ((∀ e ∈ (⟨1, 0, [⟨"b", 4, 0⟩]⟩ : IndexCache Nat).cache, e.key ≠ "b") →
          (⟨1, 0, [⟨"b", 4, 0⟩]⟩ : IndexCache Nat).get "b" 1
            = (none, (⟨1, 0, [⟨"b", 4, 0⟩]⟩ : IndexCache Nat)))
      ∧ ((∀ e ∈ (⟨1, 0, [⟨"b", 4, 0⟩]⟩ : IndexCache Nat).cache, e.key = "b" →
            (⟨1, 0, [⟨"b", 4, 0⟩]⟩ : IndexCache Nat).validity < 1 - e.ts) →
          ((⟨1, 0, [⟨"b", 4, 0⟩]⟩ : IndexCache Nat).get "b" 1).fst = none)) :=
  ⟨by decide,
    indexCache_miss_absent 1 5 [CacheOp.put "a" (3 : Nat) 0] "b" 1
      (⟨1, 0, [⟨"b", 4, 0⟩]⟩ : IndexCache Nat) (by decide)⟩

/-! Keyed resource pools. Cache.cpp lines 49 to 53 define the static maps
CurlPool.pool (pthread to CURL handle), ProjPool.pool (pthread to PJ_CONTEXT
handle) and StoragePool.pool (context type and location pair to Context
handle); the member functions are in the missing Cache.h, so acquisition is
modelled from the specification, sections 4.1 to 4.3. Handles are opaque
expensive objects identified only by their address, so they are modelled as
distinct natural identifiers drawn from a freshness counter. -/

/-- First handle registered under the key, if any (the map lookup). -/
def lookupKey {κ : Type} [DecidableEq κ] : List (κ × Nat) → κ → Option Nat
  | [], _ => none
  | p :: rest, k => if p.1 = k then some p.2 else lookupKey rest k

/-- Equation of lookupKey on a nonempty registration list. -/
theorem lookupKey_cons {κ : Type} [DecidableEq κ] (a : κ × Nat)
    (l : List (κ × Nat)) (k : κ) :
    lookupKey (a :: l) k = if a.1 = k then some a.2 else lookupKey l k := rfl

/-- Modelled from the spec: the generic keyed pool primitive underlying
CurlPool, ProjPool (key = worker thread identity) and StoragePool (key =
backend kind and location pair): a registration map plus a source of fresh
handle identities. -/
structure KeyedPool (κ : Type) where
  pool : List (κ × Nat)
  fresh : Nat

namespace KeyedPool

/-- The empty pool of Cache.cpp lines 49 to 53 (default constructed
statics). -/
def initial (κ : Type) : KeyedPool κ := ⟨[], 0⟩

/-- Modelled from the spec: acquire returns the handle registered for the
key, constructing and registering a fresh one on first request; it is total
(never fails for lack of capacity). -/
def acquire {κ : Type} [DecidableEq κ] (s : KeyedPool κ) (k : κ) :
    Nat × KeyedPool κ :=
  match lookupKey s.pool k with
  | some h => (h, s)
  | none => (s.fresh, ⟨(k, s.fresh) :: s.pool, s.fresh + 1⟩)

/-- Run a sequence of acquisitions, keeping only the final pool state. -/
def runAcq {κ : Type} [DecidableEq κ] (s : KeyedPool κ) (ks : List κ) :
    KeyedPool κ :=
  ks.foldl (fun s k => (s.acquire k).snd) s

/-- Pool sanity: every registered handle is below the freshness counter and
no handle is registered twice. -/
def Inv {κ : Type} (s : KeyedPool κ) : Prop :=
  (∀ p ∈ s.pool, p.2 < s.fresh) ∧ (s.pool.map Prod.snd).Nodup

/-- A successful lookup returns a registered handle. -/
theorem lookupKey_mem {κ : Type} [DecidableEq κ] {l : List (κ × Nat)} {k : κ}
    {h : Nat} (he : lookupKey l k = some h) : ∃ p ∈ l, p.1 = k ∧ p.2 = h := by
  induction l with
  | nil => cases he
  | cons a l ih =>
    by_cases hk : a.1 = k
    · have : lookupKey (a :: l) k = some a.2 := by
        rw [lookupKey_cons, if_pos hk]
      rw [this] at he
      exact ⟨a, List.mem_cons_self _ _, hk, (Option.some.injEq _ _).mp he⟩
    · have : lookupKey (a :: l) k = lookupKey l k := by
        rw [lookupKey_cons, if_neg hk]
      rw [this] at he
      obtain ⟨p, hp, hpk, hph⟩ := ih he
      exact ⟨p, List.mem_cons_of_mem _ hp, hpk, hph⟩

/-- Distinct keys with registered handles have distinct handles, in a pool
whose handles are pairwise distinct. -/
theorem lookupKey_ne {κ : Type} [DecidableEq κ] {l : List (κ × Nat)}
    (hnd : (l.map Prod.snd).Nodup) {k1 k2 : κ} {h1 h2 : Nat} (hne : k1 ≠ k2)
    (e1 : lookupKey l k1 = some h1) (e2 : lookupKey l k2 = some h2) :
    h1 ≠ h2 := by
  induction l with
  | nil => cases e1
  | cons a l ih =>
    rw [List.map_cons] at hnd
    have hnd1 := (List.nodup_cons.mp hnd).1
    have hnd2 := (List.nodup_cons.mp hnd).2
    by_cases hk1 : a.1 = k1
    · have hx : lookupKey (a :: l) k1 = some a.2 := by
        rw [lookupKey_cons, if_pos hk1]
      rw [hx] at e1
      have hk2 : ¬ a.1 = k2 := by
        rw [hk1]
        exact hne
      have hy : lookupKey (a :: l) k2 = lookupKey l k2 := by
        rw [lookupKey_cons, if_neg hk2]
      rw [hy] at e2
      obtain ⟨p, hp, hpk, hph⟩ := lookupKey_mem e2
      intro hcon
      apply hnd1
      rw [(Option.some.injEq _ _).mp e1, hcon, ← hph]
      exact List.mem_map_of_mem _ hp
    · have hx : lookupKey (a :: l) k1 = lookupKey l k1 := by
        rw [lookupKey_cons, if_neg hk1]
      rw [hx] at e1
      by_cases hk2 : a.1 = k2
      · have hy : lookupKey (a :: l) k2 = some a.2 := by
          rw [lookupKey_cons, if_pos hk2]
        rw [hy] at e2
        obtain ⟨p, hp, hpk, hph⟩ := lookupKey_mem e1
        intro hcon
        apply hnd1
        rw [(Option.some.injEq _ _).mp e2, ← hcon, ← hph]
        exact List.mem_map_of_mem _ hp
      · have hy : lookupKey (a :: l) k2 = lookupKey l k2 := by
          rw [lookupKey_cons, if_neg hk2]
        rw [hy] at e2
        exact ih hnd2 e1 e2

/-- Acquisition preserves the pool sanity invariant. -/
theorem acquire_inv {κ : Type} [DecidableEq κ] (s : KeyedPool κ) (k : κ)
    (h : Inv s) : Inv (s.acquire k).snd := by
  unfold acquire
  cases hfind : lookupKey s.pool k with
  | some hdl => exact h
  | none =>
    dsimp only
    constructor
    · intro p hp
      rcases List.mem_cons.mp hp with rfl | hmem
      · exact Nat.lt_succ_self _
      · exact Nat.lt_succ_of_lt (h.1 p hmem)
    · rw [List.map_cons]
      refine List.nodup_cons.mpr ⟨?_, h.2⟩
      intro hmem
      obtain ⟨p, hp, hph⟩ := List.mem_map.mp hmem
      exact Nat.lt_irrefl _ (hph ▸ h.1 p hp)

/-- The invariant holds for every reachable pool state. -/
theorem runAcq_inv {κ : Type} [DecidableEq κ] (ks : List κ) :
    ∀ s : KeyedPool κ, Inv s → Inv (runAcq s ks) := by
  induction ks with
  | nil => intro s h; exact h
  | cons k ks ih =>
    intro s h
    exact ih (s.acquire k).snd (acquire_inv s k h)

/-- The initial pool satisfies the invariant. -/
theorem initial_inv (κ : Type) : Inv (initial κ) :=
  ⟨fun p hp => absurd hp (List.not_mem_nil p), List.nodup_nil⟩

/-- Acquiring twice for the same key returns the same handle. -/
theorem acquire_idem {κ : Type} [DecidableEq κ] (s : KeyedPool κ) (k : κ) :
    (((s.acquire k).snd).acquire k).fst = (s.acquire k).fst := by
  unfold acquire
  cases hfind : lookupKey s.pool k with
  | some hdl =>
    dsimp only
    rw [hfind]
  | none =>
    dsimp only
    have : lookupKey ((k, s.fresh) :: s.pool) k = some s.fresh := by
      rw [lookupKey_cons, if_pos rfl]
    rw [this]

/-- After an acquire, the returned handle is the one registered for the
key. -/
theorem acquire_registers {κ : Type} [DecidableEq κ] (s : KeyedPool κ) (k : κ) :
    lookupKey (s.acquire k).snd.pool k = some (s.acquire k).fst := by
  unfold acquire
  cases hfind : lookupKey s.pool k with
  | some hdl =>
    dsimp only
    exact hfind
  | none =>
    dsimp only
    rw [lookupKey_cons, if_pos rfl]

/-- Distinct keys acquired in sequence receive distinct handles. -/
theorem acquire_distinct {κ : Type} [DecidableEq κ] (s : KeyedPool κ)
    (h : Inv s) {k1 k2 : κ} (hne : k1 ≠ k2) :
    (((s.acquire k1).snd).acquire k2).fst ≠ (s.acquire k1).fst := by
  cases hfind1 : lookupKey s.pool k1 with
  | some h1 =>
    have hs1 : s.acquire k1 = (h1, s) := by
      unfold acquire
      rw [hfind1]
    rw [hs1]
    cases hfind2 : lookupKey s.pool k2 with
    | some h2 =>
      have hs2 : s.acquire k2 = (h2, s) := by
        unfold acquire
        rw [hfind2]
      rw [hs2]
      exact lookupKey_ne h.2 (fun hee => hne hee.symm) hfind2 hfind1
    | none =>
      have hs2 : s.acquire k2 = (s.fresh, ⟨(k2, s.fresh) :: s.pool, s.fresh + 1⟩) := by
        unfold acquire
        rw [hfind2]
      rw [hs2]
      obtain ⟨p, hp, hpk, hph⟩ := lookupKey_mem hfind1
      have hlt : h1 < s.fresh := hph ▸ h.1 p hp
      omega
  | none =>
    have hs1 : s.acquire k1 = (s.fresh, ⟨(k1, s.fresh) :: s.pool, s.fresh + 1⟩) := by
      unfold acquire
      rw [hfind1]
    rw [hs1]
    have hlk : lookupKey ((k1, s.fresh) :: s.pool) k2 = lookupKey s.pool k2 := by
      rw [lookupKey_cons, if_neg hne]
    cases hfind2 : lookupKey s.pool k2 with
    | some h2 =>
      have hs2 : (⟨(k1, s.fresh) :: s.pool, s.fresh + 1⟩ : KeyedPool κ).acquire k2
          = (h2, ⟨(k1, s.fresh) :: s.pool, s.fresh + 1⟩) := by
        unfold acquire
        dsimp only
        rw [hlk, hfind2]
      rw [hs2]
      obtain ⟨p, hp, hpk, hph⟩ := lookupKey_mem hfind2
      have hlt : h2 < s.fresh := hph ▸ h.1 p hp
      omega
    | none =>
      have hs2 : (⟨(k1, s.fresh) :: s.pool, s.fresh + 1⟩ : KeyedPool κ).acquire k2
          = (s.fresh + 1, ⟨(k2, s.fresh + 1) :: (k1, s.fresh) :: s.pool, s.fresh + 2⟩) := by
        unfold acquire
        dsimp only
        rw [hlk, hfind2]
      rw [hs2]
      omega

end KeyedPool

/-- Claim C6: on every reachable state of a thread keyed pool (HTTP client
pool, projection context pool; thread identities and handles are opaque),
acquire constructs and registers the calling thread handle on first call,
the same thread receives the identical handle on every later acquire, two
different threads always receive distinct handles, and acquire is total so
it never fails for lack of capacity. -/
theorem threadPool_acquire_contract {κ : Type} [DecidableEq κ] (ks : List κ)
    (t1 t2 : κ) (hne : t1 ≠ t2) :
    ((((KeyedPool.runAcq (KeyedPool.initial κ) ks).acquire t1).snd.acquire t1).fst
      = ((KeyedPool.runAcq (KeyedPool.initial κ) ks).acquire t1).fst)
    ∧ (lookupKey ((KeyedPool.runAcq (KeyedPool.initial κ) ks).acquire t1).snd.pool t1
      = some ((KeyedPool.runAcq (KeyedPool.initial κ) ks).acquire t1).fst)
    ∧ ((((KeyedPool.runAcq (KeyedPool.initial κ) ks).acquire t1).snd.acquire t2).fst
      ≠ ((KeyedPool.runAcq (KeyedPool.initial κ) ks).acquire t1).fst) := by
  have hinv := KeyedPool.runAcq_inv ks (KeyedPool.initial κ) (KeyedPool.initial_inv κ)
  exact ⟨KeyedPool.acquire_idem _ t1, KeyedPool.acquire_registers _ t1,
    KeyedPool.acquire_distinct _ hinv hne⟩

/-- Concrete instance of claim C6 with thread identities zero and one after
a warm up acquisition sequence. -/
theorem threadPool_acquire_contract_witness :
    ((0 : Nat) ≠ 1)
    ∧ (((((KeyedPool.runAcq (KeyedPool.initial Nat) [0, 1, 0]).acquire 0).snd.acquire 0).fst
        = (((KeyedPool.runAcq (KeyedPool.initial Nat) [0, 1, 0]).acquire 0)).fst)
      ∧ (lookupKey (((KeyedPool.runAcq (KeyedPool.initial Nat) [0, 1, 0]).acquire 0)).snd.pool 0
        = some (((KeyedPool.runAcq (KeyedPool.initial Nat) [0, 1, 0]).acquire 0)).fst)
      ∧ ((((KeyedPool.runAcq (KeyedPool.initial Nat) [0, 1, 0]).acquire 0).snd.acquire 1).fst
        ≠ (((KeyedPool.runAcq (KeyedPool.initial Nat) [0, 1, 0]).acquire 0)).fst)) :=
  ⟨by decide, threadPool_acquire_contract [0, 1, 0] 0 1 (by decide)⟩

/-- Modelled from the spec: the storage backend kind (the enumeration
ContextType.eContextType of the C++ repository, declared outside the
provided slice; Cache.cpp line 53 uses it only as part of the StoragePool
key). -/
inductive ContextType where
  | file
  | ceph
  | s3
  | swift
deriving DecidableEq

namespace KeyedPool

/-- Run a sequence of acquisitions and record, for each one, the key, the
handle returned, and whether a construction took place (the key was not yet
registered); this is the linearized history of concurrent acquire calls,
each call being atomic because construction is guarded by the critical
section of the spec. -/
def runTrace {κ : Type} [DecidableEq κ] :
    KeyedPool κ → List κ → List (κ × Nat × Bool) × KeyedPool κ
  | s, [] => ([], s)
  | s, k :: ks =>
    ((k, (s.acquire k).fst, (lookupKey s.pool k).isNone)
        :: (runTrace (s.acquire k).snd ks).fst,
      (runTrace (s.acquire k).snd ks).snd)

/-- Equation of runTrace on a nonempty call sequence. -/
theorem runTrace_cons {κ : Type} [DecidableEq κ] (s : KeyedPool κ) (k : κ)
    (ks : List κ) :
    runTrace s (k :: ks)
      = ((k, (s.acquire k).fst, (lookupKey s.pool k).isNone)
          :: (runTrace (s.acquire k).snd ks).fst,
        (runTrace (s.acquire k).snd ks).snd) := rfl

/-- A registered handle survives any later acquisition unchanged. -/
theorem acquire_stable {κ : Type} [DecidableEq κ] (s : KeyedPool κ)
    {k : κ} {h : Nat} (k2 : κ) (hl : lookupKey s.pool k = some h) :
    lookupKey (s.acquire k2).snd.pool k = some h := by
  unfold acquire
  cases hl2 : lookupKey s.pool k2 with
  | some hdl => exact hl
  | none =>
    dsimp only
    rw [lookupKey_cons]
    rw [if_neg]
    · exact hl
    · intro heq
      have heq2 : k2 = k := heq
      rw [heq2] at hl2
      rw [hl2] at hl
      cases hl

/-- A registered handle survives a whole acquisition sequence unchanged. -/
theorem runTrace_stable {κ : Type} [DecidableEq κ] (ks : List κ) :
    ∀ (s : KeyedPool κ) {k : κ} {h : Nat}, lookupKey s.pool k = some h →
      lookupKey (runTrace s ks).snd.pool k = some h := by
  induction ks with
  | nil => intro s k h hl; exact hl
  | cons k2 ks ih =>
    intro s k h hl
    rw [runTrace_cons]
    exact ih (s.acquire k2).snd (acquire_stable s k2 hl)

/-- Every recorded acquisition returns the handle registered for its key in
the final pool state. -/
theorem runTrace_event_lookup {κ : Type} [DecidableEq κ] (ks : List κ) :
    ∀ s : KeyedPool κ, ∀ ev ∈ (runTrace s ks).fst,
      lookupKey (runTrace s ks).snd.pool ev.1 = some ev.2.1 := by
  induction ks with
  | nil => intro s ev hev; cases hev
  | cons k ks ih =>
    intro s ev hev
    rw [runTrace_cons] at hev ⊢
    dsimp only at hev ⊢
    rcases List.mem_cons.mp hev with rfl | hmem
    · exact runTrace_stable ks (s.acquire k).snd (acquire_registers s k)
    · exact ih (s.acquire k).snd ev hmem

/-- After a key is registered, no later acquisition of it constructs. -/
theorem runTrace_no_construct {κ : Type} [DecidableEq κ] (ks : List κ) (k : κ) :
    ∀ s : KeyedPool κ, (lookupKey s.pool k).isSome →
      ((runTrace s ks).fst.filter (fun ev => decide (ev.1 = k) && ev.2.2)).length
        = 0 := by
  induction ks with
  | nil => intro s hsome; rfl
  | cons k2 ks ih =>
    intro s hsome
    rw [runTrace_cons]
    dsimp only
    by_cases hk : k2 = k
    · subst hk
      cases hl : lookupKey s.pool k2 with
      | none => rw [hl] at hsome; cases hsome
      | some hdl =>
        have hsnd : (s.acquire k2).snd = s := by
          unfold acquire
          rw [hl]
        rw [hsnd]
        have hfilt : List.filter (fun ev => decide (ev.1 = k2) && ev.2.2)
            ((k2, (s.acquire k2).fst, (some hdl : Option Nat).isNone)
              :: (runTrace s ks).fst)
            = List.filter (fun ev => decide (ev.1 = k2) && ev.2.2)
              (runTrace s ks).fst := by
          rw [List.filter_cons_of_neg]
          simp
        rw [hfilt]
        exact ih s hsome
    · have hfilt : List.filter (fun ev => decide (ev.1 = k) && ev.2.2)
          ((k2, (s.acquire k2).fst, (lookupKey s.pool k2).isNone)
            :: (runTrace (s.acquire k2).snd ks).fst)
          = List.filter (fun ev => decide (ev.1 = k) && ev.2.2)
            (runTrace (s.acquire k2).snd ks).fst := by
        rw [List.filter_cons_of_neg]
        simp [hk]
      rw [hfilt]
      obtain ⟨hdl, hl⟩ := Option.isSome_iff_exists.mp hsome
      exact ih (s.acquire k2).snd (by simp [acquire_stable s k2 hl])

/-- In any acquisition history, at most one construction happens per key. -/
theorem runTrace_construct_once {κ : Type} [DecidableEq κ] (ks : List κ) (k : κ) :
    ∀ s : KeyedPool κ,
      ((runTrace s ks).fst.filter (fun ev => decide (ev.1 = k) && ev.2.2)).length
        ≤ 1 := by
  induction ks with
  | nil => intro s; exact Nat.zero_le _
  | cons k2 ks ih =>
    intro s
    rw [runTrace_cons]
    dsimp only
    by_cases hk : k2 = k
    · subst hk
      cases hl : lookupKey s.pool k2 with
      | some hdl =>
        have hsnd : (s.acquire k2).snd = s := by
          unfold acquire
          rw [hl]
        rw [hsnd]
        have hfilt : List.filter (fun ev => decide (ev.1 = k2) && ev.2.2)
            ((k2, (s.acquire k2).fst, (some hdl : Option Nat).isNone)
              :: (runTrace s ks).fst)
            = List.filter (fun ev => decide (ev.1 = k2) && ev.2.2)
              (runTrace s ks).fst := by
          rw [List.filter_cons_of_neg]
          simp
        rw [hfilt]
        exact ih s
      | none =>
        have hfilt : List.filter (fun ev => decide (ev.1 = k2) && ev.2.2)
            ((k2, (s.acquire k2).fst, (none : Option Nat).isNone)
              :: (runTrace (s.acquire k2).snd ks).fst)
            = (k2, (s.acquire k2).fst, (none : Option Nat).isNone)
              :: List.filter (fun ev => decide (ev.1 = k2) && ev.2.2)
                (runTrace (s.acquire k2).snd ks).fst := by
          rw [List.filter_cons_of_pos]
          simp
        rw [hfilt, List.length_cons]
        have hzero := runTrace_no_construct ks k2 (s.acquire k2).snd
          (by simp [acquire_registers s k2])
        rw [hzero]
    · have hfilt : List.filter (fun ev => decide (ev.1 = k) && ev.2.2)
          ((k2, (s.acquire k2).fst, (lookupKey s.pool k2).isNone)
            :: (runTrace (s.acquire k2).snd ks).fst)
          = List.filter (fun ev => decide (ev.1 = k) && ev.2.2)
            (runTrace (s.acquire k2).snd ks).fst := by
        rw [List.filter_cons_of_neg]
        simp [hk]
      rw [hfilt]
      exact ih (s.acquire k2).snd

end KeyedPool

/-- Claim C7: for every linearized history of Storage Context Pool
acquisitions (keys are backend kind and location pairs; concurrent calls
are atomic steps because construction is guarded by a critical section), at
most one construction ever happens per key, and all acquisitions of the
same key return the same handle, the one built by the first caller. -/
theorem storagePool_single_construction (ks : List (ContextType × String)) :
    (∀ ev1 ∈ (KeyedPool.runTrace (KeyedPool.initial (ContextType × String)) ks).fst,
      ∀ ev2 ∈ (KeyedPool.runTrace (KeyedPool.initial (ContextType × String)) ks).fst,
        ev1.1 = ev2.1 → ev1.2.1 = ev2.2.1)
    ∧ (∀ k : ContextType × String,
        (((KeyedPool.runTrace (KeyedPool.initial (ContextType × String)) ks).fst.filter
          (fun ev => decide (ev.1 = k) && ev.2.2)).length ≤ 1)) := by
  constructor
  · intro ev1 hev1 ev2 hev2 hkey
    have h1 := KeyedPool.runTrace_event_lookup ks
      (KeyedPool.initial (ContextType × String)) ev1 hev1
    have h2 := KeyedPool.runTrace_event_lookup ks
      (KeyedPool.initial (ContextType × String)) ev2 hev2
    rw [hkey] at h1
    rw [h1] at h2
    exact (Option.some.injEq _ _).mp h2
  · intro k
    exact KeyedPool.runTrace_construct_once ks k _

/-- Concrete instance of claim C7 on a history with a repeated key. -/
theorem storagePool_single_construction_witness :
    (∀ ev1 ∈ (KeyedPool.runTrace (KeyedPool.initial (ContextType × String))
        [(ContextType.file, "loc"), (ContextType.file, "loc"),
          (ContextType.s3, "bucket")]).fst,
      ∀ ev2 ∈ (KeyedPool.runTrace (KeyedPool.initial (ContextType × String))
        [(ContextType.file, "loc"), (ContextType.file, "loc"),
          (ContextType.s3, "bucket")]).fst,
        ev1.1 = ev2.1 → ev1.2.1 = ev2.2.1)
    ∧ (∀ k : ContextType × String,
        (((KeyedPool.runTrace (KeyedPool.initial (ContextType × String))
          [(ContextType.file, "loc"), (ContextType.file, "loc"),
            (ContextType.s3, "bucket")]).fst.filter
          (fun ev => decide (ev.1 = k) && ev.2.2)).length ≤ 1)) :=
  storagePool_single_construction
    [(ContextType.file, "loc"), (ContextType.file, "loc"),
      (ContextType.s3, "bucket")]

/-! Static registries. Cache.cpp lines 60 to 67 define the statics of the
two books: TmsBook.book and StyleBook.book (identifier to object pointer
maps), their trash vectors of retired pointers, and configuration strings.
The member functions are in the missing Cache.h, so reload, lookup and
drainTrash are modelled from the specification, section 4.5; the owned
immutable objects are opaque and identified by their address, modelled as a
natural identity. -/

/-- Modelled from the spec: a registry (Tile Matrix Set Book or Style Book)
holds the active identifier to object mapping and the trash list of retired
objects awaiting deferred destruction. -/
structure Registry where
  book : List (String × Nat)
  trash : List Nat
deriving DecidableEq

namespace Registry

/-- Modelled from the spec: lookup returns the object registered under the
identifier, or absent. -/
def lookup (r : Registry) (id : String) : Option Nat :=
  lookupKey r.book id

/-- Modelled from the spec: reload swaps the active mapping to the new set
and moves every previously active object not present by identity in the new
set onto the trash list, freeing nothing. -/
def reload (r : Registry) (newSet : List (String × Nat)) : Registry :=
  ⟨newSet,
    r.trash ++ (r.book.map Prod.snd).filter (fun o => decide (o ∉ newSet.map Prod.snd))⟩

/-- Modelled from the spec: drainTrash frees the trash entries, once the
caller guarantees no outstanding reference exists. -/
def drainTrash (r : Registry) : Registry :=
  ⟨r.book, []⟩

/-- The objects still allocated: the active generation plus the trash. -/
def live (r : Registry) : List Nat :=
  r.book.map Prod.snd ++ r.trash

end Registry

/-- Claim C8: reload swaps the active mapping to the new set, so a lookup of
an identifier absent from the new set returns absent; every previously
active object stays allocated (moved to the trash when dropped from the new
set, kept in the new book otherwise), earlier trash is not freed either, and
only drainTrash empties the trash while leaving the active book intact: a
reference obtained before the reload stays valid until drainTrash. -/
theorem registry_reload_contract (r : Registry) (ns : List (String × Nat))
    (id : String) (o : Nat)
    (hid : lookupKey ns id = none) (ho : o ∈ r.book.map Prod.snd) :
    ((r.reload ns).book = ns)
    ∧ ((r.reload ns).lookup id = none)
    ∧ (o ∈ (r.reload ns).live)
    ∧ (o ∉ ns.map Prod.snd → o ∈ (r.reload ns).trash)
    ∧ (∀ x ∈ r.trash, x ∈ (r.reload ns).trash)
    ∧ ((r.drainTrash).trash = [] ∧ (r.drainTrash).book = r.book) := by
  refine ⟨rfl, hid, ?_, ?_, ?_, rfl, rfl⟩
  · by_cases hmem : o ∈ ns.map Prod.snd
    · exact List.mem_append_left _ hmem
    · apply List.mem_append_right
      apply List.mem_append_right
      rw [List.mem_filter]
      exact ⟨ho, by simp [hmem]⟩
  · intro hnmem
    show o ∈ r.trash ++ (r.book.map Prod.snd).filter (fun o => decide (o ∉ ns.map Prod.snd))
    apply List.mem_append_right
    rw [List.mem_filter]
    exact ⟨ho, by simp [hnmem]⟩
  · intro x hx
    show x ∈ r.trash ++ (r.book.map Prod.snd).filter (fun o => decide (o ∉ ns.map Prod.snd))
    exact List.mem_append_left _ hx

/-- Concrete instance of claim C8: reloading a registry of two objects with
a replacement set that drops identifier x. -/
theorem registry_reload_contract_witness :
    (lookupKey [("y", 3)] "x" = none ∧ 1 ∈ ((⟨[("x", 1), ("y", 2)], [5]⟩ :
        Registry)).book.map Prod.snd)
    ∧ (((⟨[("x", 1), ("y", 2)], [5]⟩ : Registry).reload [("y", 3)]).book = [("y", 3)]
      ∧ ((⟨[("x", 1), ("y", 2)], [5]⟩ : Registry).reload [("y", 3)]).lookup "x" = none
      ∧ (1 ∈ ((⟨[("x", 1), ("y", 2)], [5]⟩ : Registry).reload [("y", 3)]).live)
      ∧ ((1 : Nat) ∉ ([("y", 3)] : List (String × Nat)).map Prod.snd →
          1 ∈ ((⟨[("x", 1), ("y", 2)], [5]⟩ : Registry).reload [("y", 3)]).trash)
      ∧ (∀ x ∈ (⟨[("x", 1), ("y", 2)], [5]⟩ : Registry).trash,
          x ∈ ((⟨[("x", 1), ("y", 2)], [5]⟩ : Registry).reload [("y", 3)]).trash)
      ∧ (((⟨[("x", 1), ("y", 2)], [5]⟩ : Registry).drainTrash).trash = []
        ∧ ((⟨[("x", 1), ("y", 2)], [5]⟩ : Registry).drainTrash).book
          = (⟨[("x", 1), ("y", 2)], [5]⟩ : Registry).book)) :=
  ⟨⟨by decide, by decide⟩,
    registry_reload_contract (⟨[("x", 1), ("y", 2)], [5]⟩ : Registry) [("y", 3)]
      "x" 1 (by decide) (by decide)⟩

/-- Claim C9: before any configuration is applied, the Index Cache limits
default to size = 100 entries and validity = 300 seconds (the static
initialisers of Cache.cpp lines 57 and 58), with no entry resident. -/
theorem indexCache_defaults (V : Type) :
    (IndexCache.initial V).size = 100
    ∧ (IndexCache.initial V).validity = 300
    ∧ (IndexCache.initial V).cache = [] :=
  ⟨rfl, rfl, rfl⟩

/-! The Style class, embedded directly from the provided Style.h. Only the
members that carry display logic are embedded; plain metadata accessors
(titles, abstracts, keywords, legends) play no role in the claims. -/

/-- A colour of the palette table (style/Palette.h, outside the provided
slice): red, green, blue and alpha components. -/
structure Colour where
  r : Int
  g : Int
  b : Int
  a : Int
deriving DecidableEq

/-- Modelled from the spec: the palette of a style (class Palette, declared
in style/Palette.h which is outside the provided slice). Style.h consumes a
palette only through getColoursMap (a possibly null pointer to the value to
colour table), isNoAlpha, and getColour(0), so exactly these observables
are the fields. -/
structure Palette where
  coloursMap : Option (List (Int × Colour))
  noAlpha : Bool
  colour0 : Colour
deriving DecidableEq

/-- Modelled from the spec: the sample format enumeration
(SampleFormat.eSampleFormat of enums/Format.h, outside the provided slice);
Style.h uses only the UINT member. -/
inductive SampleFormat where
  | UNKNOWN
  | UINT
  | FLOAT
deriving DecidableEq

/-- The Style class of Style.h: the palette pointer (null when absent) and
the pente, aspect and estompage treatment pointers, abstracted to their
nullness since Style.h only tests them against zero. -/
structure Style where
  palette : Option Palette
  pente : Bool
  aspect : Bool
  estompage : Bool
deriving DecidableEq

namespace Style

/-- Style.isEstompage, Style.h line 398: the estompage pointer is not
null. -/
def isEstompage (s : Style) : Bool := s.estompage

/-- Style.isPente, Style.h line 419. -/
def isPente (s : Style) : Bool := s.pente

/-- Style.isAspect, Style.h line 440. -/
def isAspect (s : Style) : Bool := s.aspect

/-- The guard `palette && palette->getColoursMap() &&
!palette->getColoursMap()->empty()` shared by getChannels,
getBitsPerSample, getSampleFormat, getNodata and isIdentity (Style.h lines
243, 263, 275, 287 and 319). -/
def hasPaletteColours (s : Style) : Bool :=
  match s.palette with
  | none => false
  | some p =>
    match p.coloursMap with
    | none => false
    | some m => !m.isEmpty

/-- The palette noAlpha flag, read only under the palette guard. -/
def paletteNoAlpha (s : Style) : Bool :=
  match s.palette with
  | none => false
  | some p => p.noAlpha

/-- The palette colour for value zero, read only under the palette guard. -/
def paletteColour0 (s : Style) : Colour :=
  match s.palette with
  | none => ⟨0, 0, 0, 0⟩
  | some p => p.colour0

/-- Style.youCan, Style.h lines 230 to 236. -/
def youCan (s : Style) (spp : Int) : Bool :=
  if s.isEstompage || s.isPente || s.isAspect then spp == 1 else true

/-- Style.getChannels, Style.h lines 242 to 256. -/
def getChannels (s : Style) (origChannels : Int) : Int :=
  if s.hasPaletteColours then
    if s.paletteNoAlpha then 3 else 4
  else
    if s.isEstompage || s.isPente || s.isAspect then 1 else origChannels

/-- Style.getBitsPerSample, Style.h lines 262 to 268. -/
def getBitsPerSample (s : Style) (origBitsPerSample : Int) : Int :=
  if s.hasPaletteColours then 8 else origBitsPerSample

/-- Style.getSampleFormat, Style.h lines 274 to 280. -/
def getSampleFormat (s : Style) (sf : SampleFormat) : SampleFormat :=
  if s.hasPaletteColours then SampleFormat.UINT else sf

/-- Style.getNodata, Style.h lines 286 to 312: the returned channel count
together with the array written through the output pointer, or none when
the pointer is left untouched. -/
def getNodata (s : Style) : Int × Option (List Int) :=
  if s.hasPaletteColours then
    if s.paletteNoAlpha then
      (3, some [s.paletteColour0.r, s.paletteColour0.g, s.paletteColour0.b])
    else
      (4, some [s.paletteColour0.r, s.paletteColour0.g, s.paletteColour0.b,
        s.paletteColour0.a])
  else
    if s.isEstompage || s.isPente || s.isAspect then (1, some [0])
    else (0, none)

/-- Style.isIdentity, Style.h lines 318 to 328. -/
def isIdentity (s : Style) : Bool :=
  if s.hasPaletteColours then false
  else if s.isEstompage || s.isPente || s.isAspect then false
  else true

end Style

/-- The palette guard fails exactly when no palette carries a nonempty,
non null colours map. -/
theorem hasPaletteColours_false_iff (s : Style) :
    s.hasPaletteColours = false ↔
      (∀ p, s.palette = some p → ∀ m, p.coloursMap = some m → m = []) := by
  unfold Style.hasPaletteColours
  cases hp : s.palette with
  | none => simp
  | some p =>
    cases hm : p.coloursMap with
    | none => simp [hm]
    | some m => simp [hm, List.isEmpty_iff]

/-- Claim C10: isIdentity returns true exactly when the style has no
palette with a non null, nonempty colour map and defines none of estompage,
pente and aspect; and whenever isIdentity is true, getChannels,
getBitsPerSample and getSampleFormat return their argument unchanged while
getNodata returns zero without writing through its output pointer. -/
theorem style_isIdentity_contract (s : Style) :
    (s.isIdentity = true ↔
      ((∀ p, s.palette = some p → ∀ m, p.coloursMap = some m → m = [])
        ∧ s.estompage = false ∧ s.pente = false ∧ s.aspect = false))
    ∧ (s.isIdentity = true →
        (∀ c : Int, s.getChannels c = c)
        ∧ (∀ b : Int, s.getBitsPerSample b = b)
        ∧ (∀ f : SampleFormat, s.getSampleFormat f = f)
        ∧ s.getNodata = (0, none)) := by
  have hchar : s.isIdentity = true ↔
      (s.hasPaletteColours = false ∧ s.estompage = false ∧ s.pente = false
        ∧ s.aspect = false) := by
    unfold Style.isIdentity Style.isEstompage Style.isPente Style.isAspect
    cases hc : s.hasPaletteColours <;> cases he : s.estompage <;>
      cases hp2 : s.pente <;> cases ha : s.aspect <;> simp
  constructor
  · rw [hchar, hasPaletteColours_false_iff]
  · intro hid
    obtain ⟨hc, he, hp2, ha⟩ := hchar.mp hid
    refine ⟨?_, ?_, ?_, ?_⟩
    · intro c
      simp [Style.getChannels, hc, Style.isEstompage, Style.isPente,
        Style.isAspect, he, hp2, ha]
    · intro b
      simp [Style.getBitsPerSample, hc]
    · intro f
      simp [Style.getSampleFormat, hc]
    · simp [Style.getNodata, hc, Style.isEstompage, Style.isPente,
        Style.isAspect, he, hp2, ha]

/-- Concrete instance of claim C10 on the bare metadata style (no palette,
no estompage, no pente, no aspect). -/
theorem style_isIdentity_contract_witness :
    (((⟨none, false, false, false⟩ : Style)).isIdentity = true ↔
      ((∀ p, (⟨none, false, false, false⟩ : Style).palette = some p →
          ∀ m, p.coloursMap = some m → m = [])
        ∧ (⟨none, false, false, false⟩ : Style).estompage = false
        ∧ (⟨none, false, false, false⟩ : Style).pente = false
        ∧ (⟨none, false, false, false⟩ : Style).aspect = false))
    ∧ ((⟨none, false, false, false⟩ : Style).isIdentity = true →
        (∀ c : Int, (⟨none, false, false, false⟩ : Style).getChannels c = c)
        ∧ (∀ b : Int, (⟨none, false, false, false⟩ : Style).getBitsPerSample b = b)
        ∧ (∀ f : SampleFormat, (⟨none, false, false, false⟩ : Style).getSampleFormat f = f)
        ∧ (⟨none, false, false, false⟩ : Style).getNodata = (0, none)) :=
  style_isIdentity_contract (⟨none, false, false, false⟩ : Style)

end CoreCpp
